import Mathlib

/-!
# Verification of `fonts/x11-importer.py`

A shallow embedding of the pure parts of the X11 bitmap-font importer:
font classification tables, the BDF header scanner, per-group collection,
the sort/deduplicate preparation inside `build_font`, advance-width
rounding, the per-group error boundary of `main`, and the dictionary
merge of the two collections.  Text is modelled as `List Char` (a Python
`str` is its character sequence); Python `int` is modelled as `Int`.
-/

namespace X11Importer

/-- Character strings, modelled as lists of characters. -/
abbrev Str := List Char

/-- Python's stable `list.sort`: insertion of `e` into a sorted list in
front of the first element `x` with `keep x e = false`; with
`keep x e := key x < key e` this is the stable ascending sort by `key`,
and with `keep x e := key e < key x` the stable descending sort. -/
def insertBy (keep : α → α → Bool) (e : α) : List α → List α
  | [] => [e]
  | x :: t => if keep x e then x :: insertBy keep e t else e :: x :: t

/-- Stable insertion sort driven by `keep` (see `insertBy`). -/
def sortBy (keep : α → α → Bool) : List α → List α
  | [] => []
  | x :: t => insertBy keep x (sortBy keep t)

/-- A build-group entry: `(pixel_size, bdf_path)` as accumulated by the
collectors (`groups[(family, style)].append((px, bdf_path))`). -/
abbrev Entry := Int × Str

/-- `bdf_entries.sort(key=lambda x: x[0])` — stable ascending sort by
pixel size (line 197 of the importer). -/
def sortEntries (l : List Entry) : List Entry :=
  sortBy (fun a b => a.1 < b.1) l

/-- The deduplication loop of `build_font` (lines 199-206): walk the
sorted entries keeping the first occurrence of each pixel size, with
`seen` the set of pixel sizes already kept. -/
def dedupeEntries (seen : List Int) : List Entry → List Entry
  | [] => []
  | e :: t =>
    if e.1 ∈ seen then dedupeEntries seen t
    else e :: dedupeEntries (e.1 :: seen) t

/-- The whole preparation step of `build_font`: sort ascending by pixel
size, then keep the first occurrence of each pixel size. -/
def prepEntries (l : List Entry) : List Entry :=
  dedupeEntries [] (sortEntries l)

/-- `'-ISO8859' in basename or '-KOI8' in basename or '-JISX' in basename`
(lines 142 and 168): the character-set exclusion test applied by both
collectors before any classification. -/
def excludedCharset (b : Str) : Bool :=
  decide ("-ISO8859".toList <:+: b) || decide ("-KOI8".toList <:+: b)
    || decide ("-JISX".toList <:+: b)

/-- The `PROPORTIONAL` table (lines 26-43), in source order:
filename prefix → (family, style). -/
def PROPORTIONAL : List (Str × String × String) := [
  ("helvR".toList,  "X11Helv",   "Regular"),
  ("helvB".toList,  "X11Helv",   "Bold"),
  ("helvO".toList,  "X11Helv",   "Oblique"),
  ("helvBO".toList, "X11Helv",   "BoldOblique"),
  ("luRS".toList,   "X11LuSans", "Regular"),
  ("luBS".toList,   "X11LuSans", "Bold"),
  ("luIS".toList,   "X11LuSans", "Oblique"),
  ("luBIS".toList,  "X11LuSans", "BoldOblique"),
  ("lubR".toList,   "X11LuSans", "Regular"),
  ("lubB".toList,   "X11LuSans", "Bold"),
  ("lubI".toList,   "X11LuSans", "Oblique"),
  ("lubBI".toList,  "X11LuSans", "BoldOblique"),
  ("lutRS".toList,  "X11LuType", "Regular"),
  ("lutBS".toList,  "X11LuType", "Bold"),
  ("termB".toList,  "X11Term",   "Bold"),
  ("term".toList,   "X11Term",   "Regular")]

/-- `sorted(PROPORTIONAL.keys(), key=len, reverse=True)` (line 125):
the table entries in stable descending order of prefix length. -/
def sortedPrefixes : List (Str × String × String) :=
  sortBy (fun a b => b.1.length < a.1.length) PROPORTIONAL

/-- `classify_proportional` (lines 122-128): first prefix of the
basename among the prefixes sorted longest-first, mapped through the
table; `None` when no prefix applies. -/
def classify_proportional (basename : Str) : Option (String × String) :=
  (sortedPrefixes.find? (fun p => p.1.isPrefixOf basename)).map (fun p => p.2)

/-- `MISC_SKIP_PREFIXES` (lines 47-49). -/
def MISC_SKIP_PREFIXES : List Str :=
  ["cl".toList, "cu".toList, "olgl".toList, "ol".toList, "nil".toList,
   "micro".toList, "dec".toList, "cursor".toList, "arabic".toList,
   "hangl".toList, "jiskan".toList, "gb".toList, "k14".toList,
   "12x13ja".toList, "18x18ja".toList, "18x18ko".toList,
   "12x24rk".toList, "8x16rk".toList]

/-- `MISC_MAP` (lines 51-83): exact basename → (family, style, pixel size). -/
def MISC_MAP : List (Str × String × String × Int) := [
  ("4x6".toList,   "X11Misc5x",  "Regular", 6),
  ("5x7".toList,   "X11Misc5x",  "Regular", 7),
  ("5x8".toList,   "X11Misc5x",  "Regular", 8),
  ("6x9".toList,   "X11Misc6x",  "Regular", 9),
  ("6x10".toList,  "X11Misc6x",  "Regular", 10),
  ("6x12".toList,  "X11Misc6x",  "Regular", 12),
  ("6x13".toList,  "X11Misc6x",  "Regular", 13),
  ("6x13B".toList, "X11Misc6x",  "Bold", 13),
  ("6x13O".toList, "X11Misc6x",  "Oblique", 13),
  ("7x13".toList,  "X11Misc7x",  "Regular", 13),
  ("7x13B".toList, "X11Misc7x",  "Bold", 13),
  ("7x13O".toList, "X11Misc7x",  "Oblique", 13),
  ("7x14".toList,  "X11Misc7x",  "Regular", 14),
  ("7x14B".toList, "X11Misc7x",  "Bold", 14),
  ("8x13".toList,  "X11Misc8x",  "Regular", 13),
  ("8x13B".toList, "X11Misc8x",  "Bold", 13),
  ("8x13O".toList, "X11Misc8x",  "Oblique", 13),
  ("8x16".toList,  "X11Misc8x",  "Regular", 16),
  ("9x15".toList,  "X11Misc9x",  "Regular", 15),
  ("9x15B".toList, "X11Misc9x",  "Bold", 15),
  ("9x18".toList,  "X11Misc9x",  "Regular", 18),
  ("9x18B".toList, "X11Misc9x",  "Bold", 18),
  ("10x20".toList, "X11Misc10x", "Regular", 20),
  ("12x24".toList, "X11Misc12x", "Regular", 24)]

/-- A `(family, style)` grouping key. -/
abbrev FamilyStyleKey := String × String

/-- `defaultdict(list)` keyed by `(family, style)`, modelled by its
lookup function (missing keys read as `[]`). -/
abbrev Groups := FamilyStyleKey → List Entry

/-- The empty `defaultdict(list)`. -/
def emptyGroups : Groups := fun _ => []

/-- `groups[key].append(e)`. -/
def appendEntry (g : Groups) (k : FamilyStyleKey) (e : Entry) : Groups :=
  fun k2 => if k2 = k then g k2 ++ [e] else g k2

/-- One iteration of the proportional collection loop (lines 140-154).
The input pairs a basename with the pixel size resolved from its
converted BDF; the entry's path is abstracted to the basename (the real
path only adds the run's temp dir and a dpi suffix). -/
def propStep (g : Groups) (f : Str × Int) : Groups :=
  if excludedCharset f.1 then g
  else
    match classify_proportional f.1 with
    | none => g
    | some key => if 0 < f.2 then appendEntry g key (f.2, f.1) else g

/-- `collect_proportional_fonts` (lines 131-156) over the listed
basenames with their resolved pixel sizes. -/
def collect_proportional_fonts (files : List (Str × Int)) : Groups :=
  files.foldl propStep emptyGroups

/-- `if actual_px > 0: px = actual_px` (lines 180-181): a resolved pixel
size overrides the static table value, an unresolved one falls back. -/
def misc_pixel_size (tablePx actual : Int) : Int :=
  if 0 < actual then actual else tablePx

/-- `MISC_MAP` lookup by exact basename. -/
def lookupMisc (b : Str) : Option (String × String × Int) :=
  (MISC_MAP.find? (fun m => m.1 == b)).map (fun m => m.2)

/-- One iteration of the misc collection loop (lines 166-182); the input
pairs a basename with the pixel size resolved from its converted BDF. -/
def miscStep (g : Groups) (f : Str × Int) : Groups :=
  if excludedCharset f.1 then g
  else if MISC_SKIP_PREFIXES.any (fun p => p.isPrefixOf f.1) then g
  else
    match lookupMisc f.1 with
    | none => g
    | some (fam, sty, tablePx) =>
      appendEntry g (fam, sty) (misc_pixel_size tablePx f.2, f.1)

/-- `collect_misc_fonts` (lines 159-184) over the listed basenames with
their resolved pixel sizes. -/
def collect_misc_fonts (files : List (Str × Int)) : Groups :=
  files.foldl miscStep emptyGroups

/-- Helper for Python `str.split()`: accumulate the current token
(reversed) while scanning. -/
def splitWsAux : Str → Str → List Str
  | [], acc => if acc.isEmpty then [] else [acc.reverse]
  | c :: t, acc =>
    if c.isWhitespace then
      if acc.isEmpty then splitWsAux t [] else acc.reverse :: splitWsAux t []
    else splitWsAux t (c :: acc)

/-- Python `line.split()` with no separator: the whitespace-delimited
nonempty tokens of the line. -/
def pySplit (s : Str) : List Str := splitWsAux s []

/-- Value of a nonempty all-digit token, else `none`. -/
def digitsVal? (cs : Str) : Option Nat :=
  if cs.isEmpty then none
  else if cs.all Char.isDigit then
    some (cs.foldl (fun a c => a * 10 + (c.toNat - 48)) 0)
  else none

/-- Python `int(token)` on a whitespace-free token: optional sign
followed by decimal digits (underscored literals are not modelled);
`none` models the `ValueError` raised on anything else. -/
def pyInt? (s : Str) : Option Int :=
  match s with
  | '+' :: rest => (digitsVal? rest).map (fun n => (n : Int))
  | '-' :: rest => (digitsVal? rest).map (fun n => -(n : Int))
  | l => (digitsVal? l).map (fun n => (n : Int))

/-- `get_pixel_size` (lines 95-103) over the file's lines: scan until a
`STARTCHAR` line, return `int(line.split()[1])` of the first
`PIXEL_SIZE ` line, else 0.  A missing second token (`IndexError`) or an
unparsable one (`ValueError`) is a raised exception, modelled as
`.error`. -/
def get_pixel_size : List Str → Except String Int
  | [] => .ok 0
  | line :: rest =>
    if ("PIXEL_SIZE ".toList).isPrefixOf line then
      match (pySplit line)[1]? with
      | none => .error "IndexError"
      | some tok =>
        match pyInt? tok with
        | some n => .ok n
        | none => .error "ValueError"
    else if ("STARTCHAR".toList).isPrefixOf line then .ok 0
    else get_pixel_size rest

/-- `font.em = largest_px * 100` (line 227). -/
def fontEm (largestPx : Int) : Int := largestPx * 100

/-- `scale = font.em // largest_px` (line 237): Python floor division. -/
def widthScale (em largestPx : Int) : Int := Int.fdiv em largestPx

/-- Python `round(w / s)` for integers `w` and positive `s`, computed
exactly: the quotient `w / s` rounded to the nearest integer, ties to
the even neighbour (IEEE doubles represent the values arising here
exactly, so the float detour in the source changes nothing). -/
def pyRoundDiv (w s : Int) : Int :=
  if 2 * (w - Int.fdiv w s * s) < s then Int.fdiv w s
  else if s < 2 * (w - Int.fdiv w s * s) then Int.fdiv w s + 1
  else if Int.fdiv w s % 2 = 0 then Int.fdiv w s else Int.fdiv w s + 1

/-- `glyph.width = round(glyph.width / scale) * scale` (line 239). -/
def roundWidth (w s : Int) : Int := pyRoundDiv w s * s

/-- The per-group loop of `main` (lines 313-323), parameterised by the
build action for one group.  `.error` models an exception raised inside
`build_font`, `.ok none` a `None` return.  Returns the collected results
and the error log, each in run order. -/
def processGroups (build : α → Except String (Option String)) :
    List α → List String × List String
  | [] => ([], [])
  | g :: rest =>
    match build g with
    | .ok (some name) =>
      ((processGroups build rest).1.cons name, (processGroups build rest).2)
    | .ok none => processGroups build rest
    | .error e =>
      ((processGroups build rest).1,
        (processGroups build rest).2.cons ("ERROR: " ++ e))

/-- A Python dict modelled by its lookup function; `d.update(other)`
(lines 309-311) makes `other`'s bindings win on common keys. -/
def dictUpdate (d other : α → Option β) : α → Option β :=
  fun k =>
    match other k with
    | some v => some v
    | none => d k

/-- `all_groups = {}; all_groups.update(prop_groups);
all_groups.update(misc_groups)` (lines 309-311). -/
def mergeGroups (prop misc : FamilyStyleKey → Option (List Entry)) :
    FamilyStyleKey → Option (List Entry) :=
  dictUpdate (dictUpdate (fun _ => none) prop) misc

/-- `'Bold' in style` selects `os2_weight = 700`, else `400`
(lines 247-252). -/
def os2_weight (style : Str) : Int :=
  if "Bold".toList <:+: style then 700 else 400

/-- Recursion core of Python `str.replace`, structural on a fuel that
`pyReplace` sets to the subject's length — enough for every step, since
each step consumes at least one character. -/
def pyReplaceGo (old new : Str) : Nat → Str → Str
  | _, [] => []
  | 0, s => s
  | fuel + 1, c :: t =>
    if old ≠ [] ∧ old.isPrefixOf (c :: t) then
      new ++ pyReplaceGo old new fuel ((c :: t).drop old.length)
    else c :: pyReplaceGo old new fuel t

/-- Python `str.replace(old, new)`: replace every non-overlapping
occurrence of `old`, scanning left to right (the patterns used by the
importer are nonempty, so the empty-pattern case is left untouched). -/
def pyReplace (old new s : Str) : Str := pyReplaceGo old new s.length s

/-- `subfamily = style.replace('Oblique', 'Italic')
.replace('BoldItalic', 'Bold Italic')` (line 269). -/
def subfamilyName (style : Str) : Str :=
  pyReplace "BoldItalic".toList "Bold Italic".toList
    (pyReplace "Oblique".toList "Italic".toList style)

/-! ## Basic lemmas on the stable sort -/

theorem mem_insertBy (keep : α → α → Bool) (e : α) (l : List α) (a : α) :
    a ∈ insertBy keep e l ↔ a = e ∨ a ∈ l := by
  induction l with
  | nil => simp [insertBy]
  | cons x t ih =>
    by_cases h : keep x e = true
    · simp [insertBy, h, ih]
      try tauto
    · simp [insertBy, h]
      try tauto

theorem mem_sortBy (keep : α → α → Bool) (l : List α) (a : α) :
    a ∈ sortBy keep l ↔ a ∈ l := by
  induction l with
  | nil => simp [sortBy]
  | cons x t ih => simp [sortBy, mem_insertBy, ih]

theorem pairwise_insertEntry (e : Entry) (l : List Entry)
    (hl : l.Pairwise (fun a b => a.1 ≤ b.1)) :
    (insertBy (fun a b => a.1 < b.1) e l).Pairwise (fun a b => a.1 ≤ b.1) := by
  induction l with
  | nil => simp [insertBy]
  | cons x t ih =>
    rcases List.pairwise_cons.mp hl with ⟨hx, ht⟩
    by_cases h : (x.1 < e.1 : Bool) = true
    · rw [insertBy, if_pos h]
      refine List.pairwise_cons.mpr ⟨?_, ih ht⟩
      intro a ha
      rcases (mem_insertBy _ e t a).mp ha with rfl | ha
      · exact le_of_lt (by simpa using h)
      · exact hx a ha
    · rw [insertBy, if_neg h]
      have he : e.1 ≤ x.1 := by simpa using h
      refine List.pairwise_cons.mpr ⟨?_, hl⟩
      intro a ha
      rcases List.mem_cons.mp ha with rfl | ha
      · exact he
      · exact he.trans (hx a ha)

theorem pairwise_sortEntries (l : List Entry) :
    (sortEntries l).Pairwise (fun a b => a.1 ≤ b.1) := by
  induction l with
  | nil => exact List.Pairwise.nil
  | cons x t ih => exact pairwise_insertEntry x _ ih

/-! ## Stability of the sort: the subsequence of entries having any fixed
pixel size is untouched by sorting. -/

theorem filter_insertEntry_self (e : Entry) (l : List Entry) :
    (insertBy (fun a b => a.1 < b.1) e l).filter (fun x => x.1 == e.1)
      = e :: l.filter (fun x => x.1 == e.1) := by
  induction l with
  | nil => simp [insertBy]
  | cons x t ih =>
    by_cases h : (x.1 < e.1 : Bool) = true
    · have hne : (x.1 == e.1) = false := by
        have : x.1 < e.1 := by simpa using h
        simp [this.ne]
      rw [insertBy, if_pos h]
      simp [List.filter_cons, hne, ih]
    · rw [insertBy, if_neg h]
      simp [List.filter_cons]

theorem filter_insertEntry_ne (e : Entry) (l : List Entry) (n : Int)
    (hne : e.1 ≠ n) :
    (insertBy (fun a b => a.1 < b.1) e l).filter (fun x => x.1 == n)
      = l.filter (fun x => x.1 == n) := by
  induction l with
  | nil => simp [insertBy, hne]
  | cons x t ih =>
    by_cases h : (x.1 < e.1 : Bool) = true
    · rw [insertBy, if_pos h]
      simp only [List.filter_cons, ih]
    · rw [insertBy, if_neg h]
      simp [List.filter_cons, hne]

theorem filter_sortEntries (l : List Entry) (n : Int) :
    (sortEntries l).filter (fun x => x.1 == n) = l.filter (fun x => x.1 == n) := by
  induction l with
  | nil => rfl
  | cons x t ih =>
    show (insertBy _ x (sortEntries t)).filter _ = _
    by_cases h : x.1 = n
    · subst h
      rw [filter_insertEntry_self]
      simp [List.filter_cons, ih]
    · rw [filter_insertEntry_ne _ _ _ h]
      have : (x.1 == n) = false := by simp [h]
      simp [List.filter_cons, this, ih]

/-! ## The deduplication pass -/

theorem dedupeEntries_sublist (seen : List Int) (l : List Entry) :
    List.Sublist (dedupeEntries seen l) l := by
  induction l generalizing seen with
  | nil => simp [dedupeEntries]
  | cons e t ih =>
    rw [dedupeEntries]
    by_cases h : e.1 ∈ seen
    · simp only [if_pos h]
      exact (ih seen).cons e
    · simp only [if_neg h]
      exact (ih (e.1 :: seen)).cons₂ e

theorem mem_dedupeEntries_not_seen (seen : List Int) (l : List Entry)
    (e : Entry) (he : e ∈ dedupeEntries seen l) : e.1 ∉ seen := by
  induction l generalizing seen with
  | nil => simp [dedupeEntries] at he
  | cons x t ih =>
    rw [dedupeEntries] at he
    by_cases h : x.1 ∈ seen
    · rw [if_pos h] at he
      exact ih seen he
    · rw [if_neg h] at he
      rcases List.mem_cons.mp he with rfl | he
      · exact h
      · have := ih (x.1 :: seen) he
        exact fun hc => this (List.mem_cons_of_mem _ hc)

theorem dedupeEntries_keeps_first (seen : List Int) (l : List Entry)
    (e : Entry) (he : e ∈ dedupeEntries seen l) :
    l.find? (fun x => x.1 == e.1) = some e := by
  induction l generalizing seen with
  | nil => simp [dedupeEntries] at he
  | cons x t ih =>
    rw [dedupeEntries] at he
    by_cases h : x.1 ∈ seen
    · rw [if_pos h] at he
      have hne : e.1 ≠ x.1 := by
        intro hc
        exact (mem_dedupeEntries_not_seen seen t e he) (hc ▸ h)
      rw [List.find?_cons]
      have : (x.1 == e.1) = false := by simpa using Ne.symm hne
      rw [this]
      exact ih seen he
    · rw [if_neg h] at he
      rcases List.mem_cons.mp he with rfl | he
      · rw [List.find?_cons]
        simp
      · have hne : e.1 ≠ x.1 := by
          intro hc
          exact (mem_dedupeEntries_not_seen _ t e he) (by simp [hc])
        rw [List.find?_cons]
        have : (x.1 == e.1) = false := by simpa using Ne.symm hne
        rw [this]
        exact ih (x.1 :: seen) he

theorem pairwise_ne_dedupeEntries (seen : List Int) (l : List Entry) :
    (dedupeEntries seen l).Pairwise (fun a b => a.1 ≠ b.1) := by
  induction l generalizing seen with
  | nil => exact List.Pairwise.nil
  | cons x t ih =>
    rw [dedupeEntries]
    by_cases h : x.1 ∈ seen
    · rw [if_pos h]; exact ih seen
    · rw [if_neg h]
      refine List.pairwise_cons.mpr ⟨?_, ih (x.1 :: seen)⟩
      intro a ha
      intro hc
      exact (mem_dedupeEntries_not_seen _ t a ha) (by simp [hc])

theorem mem_dedupeEntries_covers (seen : List Int) (l : List Entry)
    (m : Entry) (hm : m ∈ l) :
    m.1 ∈ seen ∨ ∃ e ∈ dedupeEntries seen l, e.1 = m.1 := by
  induction l generalizing seen with
  | nil => simp at hm
  | cons x t ih =>
    rw [dedupeEntries]
    by_cases h : x.1 ∈ seen
    · rw [if_pos h]
      rcases List.mem_cons.mp hm with rfl | hm
      · exact Or.inl h
      · exact ih seen hm
    · rw [if_neg h]
      rcases List.mem_cons.mp hm with rfl | hm
      · exact Or.inr ⟨_, List.mem_cons_self _ _, rfl⟩
      · rcases ih (x.1 :: seen) hm with hs | ⟨e, he, hee⟩
        · rcases List.mem_cons.mp hs with heq | hs
          · exact Or.inr ⟨_, List.mem_cons_self _ _, heq.symm⟩
          · exact Or.inl hs
        · exact Or.inr ⟨e, List.mem_cons_of_mem _ he, hee⟩

/-! ## Sorted lists are fixed by the sort; duplicate-free lists by the
deduplication -/

theorem insertEntry_of_le (e : Entry) (t : List Entry)
    (h : ∀ a ∈ t, e.1 ≤ a.1) :
    insertBy (fun a b => a.1 < b.1) e t = e :: t := by
  cases t with
  | nil => rfl
  | cons y t' =>
    have hy : ¬ (y.1 < e.1) := not_lt.mpr (h y (List.mem_cons_self y t'))
    rw [insertBy, if_neg (by simpa using hy)]

theorem sortEntries_of_sorted (s : List Entry)
    (hs : s.Pairwise (fun a b => a.1 ≤ b.1)) : sortEntries s = s := by
  induction s with
  | nil => rfl
  | cons x t ih =>
    rcases List.pairwise_cons.mp hs with ⟨hx, ht⟩
    show insertBy _ x (sortEntries t) = x :: t
    rw [ih ht, insertEntry_of_le x t hx]

theorem dedupeEntries_of_distinct (seen : List Int) (s : List Entry)
    (hseen : ∀ e ∈ s, e.1 ∉ seen)
    (hnd : s.Pairwise (fun a b => a.1 ≠ b.1)) :
    dedupeEntries seen s = s := by
  induction s generalizing seen with
  | nil => rfl
  | cons x t ih =>
    rcases List.pairwise_cons.mp hnd with ⟨hx, ht⟩
    rw [dedupeEntries, if_neg (hseen x (List.mem_cons_self x t))]
    congr 1
    refine ih (x.1 :: seen) ?_ ht
    intro e he
    intro hc
    rcases List.mem_cons.mp hc with heq | hc
    · exact hx e he heq.symm
    · exact hseen e (List.mem_cons_of_mem _ he) hc

/-! ## Ordering facts about the prepared group -/

theorem pairwise_le_prepEntries (l : List Entry) :
    (prepEntries l).Pairwise (fun a b => a.1 ≤ b.1) :=
  (pairwise_sortEntries l).sublist (dedupeEntries_sublist [] (sortEntries l))

theorem pairwise_lt_prepEntries (l : List Entry) :
    (prepEntries l).Pairwise (fun a b => a.1 < b.1) := by
  have h1 := pairwise_le_prepEntries l
  have h2 := pairwise_ne_dedupeEntries [] (sortEntries l)
  exact (h1.and h2).imp (fun h => lt_of_le_of_ne h.1 h.2)

theorem mem_prepEntries_mem (l : List Entry) (e : Entry)
    (he : e ∈ prepEntries l) : e ∈ l := by
  have h1 : e ∈ sortEntries l :=
    (dedupeEntries_sublist [] (sortEntries l)).subset he
  exact (mem_sortBy _ l e).mp h1

theorem prepEntries_covers (l : List Entry) (m : Entry) (hm : m ∈ l) :
    ∃ e ∈ prepEntries l, e.1 = m.1 := by
  have h1 : m ∈ sortEntries l := (mem_sortBy _ l m).mpr hm
  rcases mem_dedupeEntries_covers [] (sortEntries l) m h1 with hs | h
  · simp at hs
  · exact h

theorem head_min_of_sorted (l : List Entry)
    (hl : l.Pairwise (fun a b => a.1 ≤ b.1)) (h : Entry)
    (hh : l.head? = some h) : ∀ e ∈ l, h.1 ≤ e.1 := by
  cases l with
  | nil => simp at hh
  | cons x t =>
    have hx : x = h := by simpa using hh
    subst hx
    intro e he
    rcases List.mem_cons.mp he with rfl | he
    · exact le_refl _
    · exact (List.pairwise_cons.mp hl).1 e he

theorem last_max_of_sorted (l : List Entry)
    (hl : l.Pairwise (fun a b => a.1 ≤ b.1)) (z : Entry)
    (hz : l.getLast? = some z) : ∀ e ∈ l, e.1 ≤ z.1 := by
  induction l with
  | nil => simp at hz
  | cons x t ih =>
    cases t with
    | nil =>
      have : x = z := by simpa using hz
      subst this
      intro e he
      rcases List.mem_cons.mp he with rfl | he
      · exact le_refl _
      · simp at he
    | cons y t' =>
      have hz' : (y :: t').getLast? = some z := by
        rw [← hz, List.getLast?_cons_cons]
      have hmem : z ∈ y :: t' := List.mem_of_mem_getLast? hz'
      intro e he
      rcases List.mem_cons.mp he with rfl | he
      · exact (List.pairwise_cons.mp hl).1 z hmem
      · exact ih (List.pairwise_cons.mp hl).2 hz' e he

theorem prepEntries_ne_nil (l : List Entry) (hl : l ≠ []) :
    prepEntries l ≠ [] := by
  rcases List.exists_cons_of_ne_nil hl with ⟨a, t, rfl⟩
  have ha : a ∈ sortEntries (a :: t) := (mem_sortBy _ _ a).mpr (List.mem_cons_self a t)
  rcases List.exists_cons_of_ne_nil (List.ne_nil_of_mem ha) with ⟨b, s, hb⟩
  show dedupeEntries [] (sortEntries (a :: t)) ≠ []
  rw [hb, dedupeEntries]
  simp

/-! ## Positivity: a pixel size of 0 is never appended by a collector -/

theorem mem_appendEntry (g : Groups) (k k2 : FamilyStyleKey) (x e : Entry)
    (hx : x ∈ appendEntry g k e k2) : x ∈ g k2 ∨ x = e := by
  unfold appendEntry at hx
  by_cases h : k2 = k
  · rw [if_pos h] at hx
    rcases List.mem_append.mp hx with h1 | h2
    · exact Or.inl h1
    · exact Or.inr (by simpa using h2)
  · rw [if_neg h] at hx
    exact Or.inl hx

theorem propStep_pos (g : Groups) (f : Str × Int)
    (hg : ∀ k e, e ∈ g k → 0 < e.1) :
    ∀ k e, e ∈ propStep g f k → 0 < e.1 := by
  intro k e he
  unfold propStep at he
  by_cases hx : excludedCharset f.1 = true
  · rw [if_pos hx] at he
    exact hg k e he
  · rw [if_neg hx] at he
    cases hcl : classify_proportional f.1 with
    | none => rw [hcl] at he; exact hg k e he
    | some key =>
      rw [hcl] at he
      have he' : e ∈ (if 0 < f.2 then appendEntry g key (f.2, f.1) else g) k := he
      by_cases hpx : (0 : Int) < f.2
      · rw [if_pos hpx] at he'
        rcases mem_appendEntry _ _ _ _ _ he' with h1 | h2
        · exact hg k e h1
        · rw [h2]; exact hpx
      · rw [if_neg hpx] at he'
        exact hg k e he'

theorem MISC_MAP_pos : ∀ m ∈ MISC_MAP, 0 < m.2.2.2 := by decide

theorem miscStep_pos (g : Groups) (f : Str × Int)
    (hg : ∀ k e, e ∈ g k → 0 < e.1) :
    ∀ k e, e ∈ miscStep g f k → 0 < e.1 := by
  intro k e he
  unfold miscStep at he
  by_cases hx : excludedCharset f.1 = true
  · rw [if_pos hx] at he
    exact hg k e he
  · rw [if_neg hx] at he
    by_cases hs : MISC_SKIP_PREFIXES.any (fun p => p.isPrefixOf f.1) = true
    · rw [if_pos hs] at he
      exact hg k e he
    · rw [if_neg hs] at he
      cases hlk : lookupMisc f.1 with
      | none => rw [hlk] at he; exact hg k e he
      | some v =>
        obtain ⟨fam, sty, tpx⟩ := v
        rw [hlk] at he
        have he' : e ∈ appendEntry g (fam, sty) (misc_pixel_size tpx f.2, f.1) k := he
        rcases mem_appendEntry _ _ _ _ _ he' with h1 | h2
        · exact hg k e h1
        · rw [h2]
          show 0 < misc_pixel_size tpx f.2
          unfold misc_pixel_size
          by_cases hpx : (0 : Int) < f.2
          · rw [if_pos hpx]; exact hpx
          · rw [if_neg hpx]
            unfold lookupMisc at hlk
            cases hf : MISC_MAP.find? (fun m => m.1 == f.1) with
            | none => rw [hf] at hlk; simp at hlk
            | some m0 =>
              rw [hf] at hlk
              have hm0 : m0 ∈ MISC_MAP := List.mem_of_find?_eq_some hf
              have hm2 : m0.2 = (fam, sty, tpx) := by simpa using hlk
              have hpos := MISC_MAP_pos m0 hm0
              rw [hm2] at hpos
              simpa using hpos

theorem collect_proportional_pos (files : List (Str × Int)) :
    ∀ k e, e ∈ collect_proportional_fonts files k → 0 < e.1 := by
  suffices h : ∀ (g : Groups), (∀ k e, e ∈ g k → 0 < e.1) →
      ∀ k e, e ∈ files.foldl propStep g k → 0 < e.1 by
    exact h emptyGroups (by intro k e he; simp [emptyGroups] at he)
  induction files with
  | nil => intro g hg; exact hg
  | cons f t ih =>
    intro g hg
    exact ih (propStep g f) (propStep_pos g f hg)

theorem collect_misc_pos (files : List (Str × Int)) :
    ∀ k e, e ∈ collect_misc_fonts files k → 0 < e.1 := by
  suffices h : ∀ (g : Groups), (∀ k e, e ∈ g k → 0 < e.1) →
      ∀ k e, e ∈ files.foldl miscStep g k → 0 < e.1 by
    exact h emptyGroups (by intro k e he; simp [emptyGroups] at he)
  induction files with
  | nil => intro g hg; exact hg
  | cons f t ih =>
    intro g hg
    exact ih (miscStep g f) (miscStep_pos g f hg)

/-- C2: collectors never add a pixel size ≤ 0 to a group; after the
sort-ascending and first-occurrence deduplication of `build_font` the
retained entries have strictly increasing (hence positive) pixel sizes;
the first retained entry's pixel size is ≤ every member's and the last
retained entry's is ≥ every member's; and an entry retained for a given
pixel size is the first-encountered input entry with that size. -/
theorem build_group_prep_invariants :
    (∀ files k e, e ∈ collect_proportional_fonts files k → 0 < e.1) ∧
    (∀ files k e, e ∈ collect_misc_fonts files k → 0 < e.1) ∧
    (∀ l : List Entry, (∀ e ∈ l, 0 < e.1) →
      (prepEntries l).Pairwise (fun a b => a.1 < b.1) ∧
        ∀ e ∈ prepEntries l, 0 < e.1) ∧
    (∀ l : List Entry, l ≠ [] →
      ∃ h z, (prepEntries l).head? = some h ∧ (prepEntries l).getLast? = some z ∧
        ∀ m ∈ l, h.1 ≤ m.1 ∧ m.1 ≤ z.1) ∧
    (∀ (l : List Entry), ∀ e ∈ prepEntries l,
      l.find? (fun x => x.1 == e.1) = some e) := by
  refine ⟨collect_proportional_pos, collect_misc_pos, ?_, ?_, ?_⟩
  · intro l hpos
    refine ⟨pairwise_lt_prepEntries l, ?_⟩
    intro e he
    exact hpos e (mem_prepEntries_mem l e he)
  · intro l hl
    have hne := prepEntries_ne_nil l hl
    rcases List.exists_cons_of_ne_nil hne with ⟨a, t, hat⟩
    have hh : (prepEntries l).head? = some a := by rw [hat]; rfl
    have hz : ∃ z, (prepEntries l).getLast? = some z := by
      rw [hat]
      exact ⟨(a :: t).getLast (by simp), List.getLast?_eq_getLast _ _⟩
    rcases hz with ⟨z, hz⟩
    refine ⟨a, z, hh, hz, ?_⟩
    intro m hm
    rcases prepEntries_covers l m hm with ⟨e, he, hee⟩
    constructor
    · calc a.1 ≤ e.1 :=
            head_min_of_sorted _ (pairwise_le_prepEntries l) a hh e he
        _ = m.1 := hee
    · calc m.1 = e.1 := hee.symm
        _ ≤ z.1 := last_max_of_sorted _ (pairwise_le_prepEntries l) z hz e he
  · intro l e he
    have h1 : (sortEntries l).find? (fun x => x.1 == e.1) = some e :=
      dedupeEntries_keeps_first [] (sortEntries l) e he
    rw [← List.filter_head? _ l, ← filter_sortEntries l e.1,
      List.filter_head? _ (sortEntries l)]
    exact h1

/-- Witness for C2 at a concrete group with a duplicated pixel size. -/
theorem build_group_prep_invariants_witness :
    (prepEntries [((14 : Int), "a".toList), (12, "b".toList), (14, "c".toList)]).Pairwise
        (fun a b => a.1 < b.1) ∧
      List.find?
          (fun x => x.1 == (14 : Int))
          [((14 : Int), "a".toList), (12, "b".toList), (14, "c".toList)]
        = some (14, "a".toList) := by
  obtain ⟨-, -, h3, -, h5⟩ := build_group_prep_invariants
  refine ⟨(h3 [((14 : Int), "a".toList), (12, "b".toList), (14, "c".toList)]
    (by decide)).1, ?_⟩
  exact h5 [((14 : Int), "a".toList), (12, "b".toList), (14, "c".toList)]
    ((14 : Int), "a".toList) (by decide)

/-- C3: the sort-then-keep-first-occurrence preparation of `build_font`
is idempotent — applied to its own output it returns it unchanged, so a
group with repeated pixel sizes yields the same build group as its
deduplicated pre-sorted form. -/
theorem prepEntries_idempotent (l : List Entry) :
    prepEntries (prepEntries l) = prepEntries l := by
  have hsorted : (prepEntries l).Pairwise (fun a b => a.1 ≤ b.1) :=
    pairwise_le_prepEntries l
  have hne : (prepEntries l).Pairwise (fun a b => a.1 ≠ b.1) :=
    pairwise_ne_dedupeEntries [] (sortEntries l)
  show dedupeEntries [] (sortEntries (prepEntries l)) = prepEntries l
  rw [sortEntries_of_sorted _ hsorted]
  exact dedupeEntries_of_distinct [] _ (by simp) hne

/-! ## The proportional classifier scans prefixes longest-first -/

theorem find?_head (l : List α) (p : α → Bool) (x : α)
    (hx : l.head? = some x) (hpx : p x = true) : l.find? p = some x := by
  cases l with
  | nil => simp at hx
  | cons a t =>
    have : a = x := by simpa using hx
    subst this
    rw [List.find?_cons, hpx]

theorem find?_longest_of_pairwise (l : List (Str × String × String))
    (hl : l.Pairwise (fun a b => b.1.length ≤ a.1.length)) (b : Str)
    (e : Str × String × String)
    (he : l.find? (fun p => p.1.isPrefixOf b) = some e) :
    ∀ q ∈ l, q.1.isPrefixOf b = true → q.1.length ≤ e.1.length := by
  induction l with
  | nil => simp at he
  | cons x t ih =>
    rcases List.pairwise_cons.mp hl with ⟨hx, ht⟩
    rw [List.find?_cons] at he
    by_cases hm : (x.1.isPrefixOf b : Bool) = true
    · rw [hm] at he
      have : x = e := by simpa using he
      subst this
      intro q hq hqb
      rcases List.mem_cons.mp hq with rfl | hq
      · exact le_refl _
      · exact hx q hq
    · rw [Bool.not_eq_true] at hm
      rw [hm] at he
      intro q hq hqb
      rcases List.mem_cons.mp hq with rfl | hq
      · rw [hqb] at hm; simp at hm
      · exact ih ht he q hq hqb

theorem sortedPrefixes_pairwise :
    sortedPrefixes.Pairwise (fun a b => b.1.length ≤ a.1.length) := by decide

theorem mem_sortedPrefixes_of_mem :
    ∀ q ∈ PROPORTIONAL, q ∈ sortedPrefixes := by decide

theorem mem_of_mem_sortedPrefixes :
    ∀ q ∈ sortedPrefixes, q ∈ PROPORTIONAL := by decide

theorem sortedPrefixes_head :
    sortedPrefixes.head? = some ("helvBO".toList, "X11Helv", "BoldOblique") := by
  decide

/-- C1: `classify_proportional` returns the (family, style) mapped by
the longest `PROPORTIONAL` prefix that is a textual prefix of the
basename, and `None` when no table prefix applies; in particular every
basename starting with `helvBO` also starts with `helvB` and resolves to
(X11Helv, BoldOblique). -/
theorem classify_proportional_longest_prefix :
    (∀ b : Str, (classify_proportional b = none ↔
      ∀ q ∈ PROPORTIONAL, ¬ q.1.isPrefixOf b = true)) ∧
    (∀ (b : Str) (r : String × String), classify_proportional b = some r →
      ∃ p ∈ PROPORTIONAL, p.1.isPrefixOf b = true ∧ p.2 = r ∧
        ∀ q ∈ PROPORTIONAL, q.1.isPrefixOf b = true →
          q.1.length ≤ p.1.length) ∧
    (∀ b : Str, ("helvBO".toList).isPrefixOf b = true →
      ("helvB".toList).isPrefixOf b = true ∧
        classify_proportional b = some ("X11Helv", "BoldOblique")) := by
  refine ⟨?_, ?_, ?_⟩
  · intro b
    unfold classify_proportional
    constructor
    · intro h q hq hqb
      cases hf : sortedPrefixes.find? (fun p => p.1.isPrefixOf b) with
      | none =>
        have := List.find?_eq_none.mp hf q (mem_sortedPrefixes_of_mem q hq)
        exact this hqb
      | some p => rw [hf] at h; simp at h
    · intro h
      cases hf : sortedPrefixes.find? (fun p => p.1.isPrefixOf b) with
      | none => rfl
      | some p =>
        have hp : (p.1.isPrefixOf b : Bool) = true := by
          have := List.find?_some hf
          simpa using this
        have hpm : p ∈ PROPORTIONAL :=
          mem_of_mem_sortedPrefixes p (List.mem_of_find?_eq_some hf)
        exact absurd hp (h p hpm)
  · intro b r hr
    unfold classify_proportional at hr
    cases hf : sortedPrefixes.find? (fun p => p.1.isPrefixOf b) with
    | none => rw [hf] at hr; simp at hr
    | some p =>
      rw [hf] at hr
      have hpr : p.2 = r := by simpa using hr
      have hp : (p.1.isPrefixOf b : Bool) = true := by
        have := List.find?_some hf
        simpa using this
      refine ⟨p, mem_of_mem_sortedPrefixes p (List.mem_of_find?_eq_some hf),
        hp, hpr, ?_⟩
      intro q hq hqb
      exact find?_longest_of_pairwise sortedPrefixes sortedPrefixes_pairwise
        b p hf q (mem_sortedPrefixes_of_mem q hq) hqb
  · intro b hb
    have hBO : ("helvBO".toList) <+: b := by
      rw [← List.isPrefixOf_iff_prefix]; exact hb
    have hB : ("helvB".toList) <+: b := by
      refine List.IsPrefix.trans ?_ hBO
      decide
    refine ⟨List.isPrefixOf_iff_prefix.mpr hB, ?_⟩
    unfold classify_proportional
    rw [find?_head sortedPrefixes _ _ sortedPrefixes_head hb]
    rfl

/-- Witness for C1 at the basename `helvBO24`: it starts with both
`helvB` and `helvBO` and classifies as (X11Helv, BoldOblique). -/
theorem classify_proportional_longest_prefix_witness :
    ("helvB".toList).isPrefixOf ("helvBO24".toList) = true ∧
      classify_proportional ("helvBO24".toList)
        = some ("X11Helv", "BoldOblique") :=
  classify_proportional_longest_prefix.2.2 ("helvBO24".toList) (by decide)

/-! ## Character-set exclusion happens before classification -/

/-- C7: a basename containing an excluded character-set marker is
skipped by both collectors — its collection step is the identity on the
groups, so inserting it anywhere in the file list changes no build
group.  The sample `helvB-ISO8859-1` would classify as (X11Helv, Bold)
by prefix, yet is excluded. -/
theorem excluded_charset_skipped :
    (∀ (g : Groups) (f : Str × Int), excludedCharset f.1 = true →
      propStep g f = g ∧ miscStep g f = g) ∧
    (∀ (files1 files2 : List (Str × Int)) (f : Str × Int),
      excludedCharset f.1 = true →
      collect_proportional_fonts (files1 ++ f :: files2)
          = collect_proportional_fonts (files1 ++ files2) ∧
        collect_misc_fonts (files1 ++ f :: files2)
          = collect_misc_fonts (files1 ++ files2)) ∧
    (excludedCharset ("helvB-ISO8859-1".toList) = true ∧
      classify_proportional ("helvB-ISO8859-1".toList)
        = some ("X11Helv", "Bold")) := by
  have hstep : ∀ (g : Groups) (f : Str × Int), excludedCharset f.1 = true →
      propStep g f = g ∧ miscStep g f = g := by
    intro g f hf
    constructor
    · unfold propStep
      rw [if_pos hf]
    · unfold miscStep
      rw [if_pos hf]
  refine ⟨hstep, ?_, by decide, by decide⟩
  intro files1 files2 f hf
  constructor
  · show (files1 ++ f :: files2).foldl propStep emptyGroups
      = (files1 ++ files2).foldl propStep emptyGroups
    rw [List.foldl_append, List.foldl_append, List.foldl_cons,
      (hstep _ f hf).1]
  · show (files1 ++ f :: files2).foldl miscStep emptyGroups
      = (files1 ++ files2).foldl miscStep emptyGroups
    rw [List.foldl_append, List.foldl_append, List.foldl_cons,
      (hstep _ f hf).2]

/-- Witness for C7: the excluded basename `helvB-ISO8859-1` leaves the
collectors' state untouched. -/
theorem excluded_charset_skipped_witness :
    propStep emptyGroups ("helvB-ISO8859-1".toList, 12) = emptyGroups ∧
      miscStep emptyGroups ("helvB-ISO8859-1".toList, 12) = emptyGroups :=
  excluded_charset_skipped.1 emptyGroups ("helvB-ISO8859-1".toList, 12)
    (by decide)

/-! ## The merge of the two collections: misc wins on common keys -/

/-- C10: after `all_groups.update(prop_groups);
all_groups.update(misc_groups)`, a key bound in the misc collection
reads misc's group — the proportional binding is discarded entirely, not
combined — and only keys absent from misc read the proportional
binding. -/
theorem merge_misc_wins :
    (∀ (prop misc : FamilyStyleKey → Option (List Entry))
      (k : FamilyStyleKey) (v : List Entry),
      misc k = some v → mergeGroups prop misc k = some v) ∧
    (∀ (prop prop' misc : FamilyStyleKey → Option (List Entry))
      (k : FamilyStyleKey),
      misc k ≠ none → mergeGroups prop misc k = mergeGroups prop' misc k) ∧
    (∀ (prop misc : FamilyStyleKey → Option (List Entry))
      (k : FamilyStyleKey),
      misc k = none → mergeGroups prop misc k = prop k) := by
  refine ⟨?_, ?_, ?_⟩
  · intro prop misc k v hv
    unfold mergeGroups dictUpdate
    rw [hv]
  · intro prop prop' misc k hv
    unfold mergeGroups dictUpdate
    cases hm : misc k with
    | none => exact absurd hm hv
    | some v => rfl
  · intro prop misc k hv
    unfold mergeGroups dictUpdate
    rw [hv]
    cases prop k <;> rfl

/-- Witness for C10 at concrete dictionaries sharing the key
(X11Misc6x, Regular). -/
theorem merge_misc_wins_witness :
    mergeGroups (fun _ => some [((12 : Int), "p".toList)])
        (fun _ => some [((13 : Int), "m".toList)]) ("X11Misc6x", "Regular")
      = some [((13 : Int), "m".toList)] :=
  merge_misc_wins.1 _ _ ("X11Misc6x", "Regular") _ rfl

/-! ## The per-group error boundary of `main` -/

/-- C8: the per-group loop collects exactly the names of the groups
whose build returns one, logs exactly the errors of the groups whose
build raises, and a raising group is omitted while every other group is
still processed: dropping it from the input leaves the collected
results unchanged, and its error is in the log. -/
theorem per_group_failure_isolated {α : Type} :
    (∀ (build : α → Except String (Option String)) (gs : List α),
      (processGroups build gs).1
          = gs.filterMap (fun g =>
            match build g with
            | .ok (some n) => some n
            | .ok none => none
            | .error _ => none) ∧
        (processGroups build gs).2
          = gs.filterMap (fun g =>
            match build g with
            | .ok _ => none
            | .error e => some ("ERROR: " ++ e))) ∧
    (∀ (build : α → Except String (Option String)) (gs1 gs2 : List α)
      (g : α) (e : String), build g = .error e →
      (processGroups build (gs1 ++ g :: gs2)).1
          = (processGroups build (gs1 ++ gs2)).1 ∧
        ("ERROR: " ++ e) ∈ (processGroups build (gs1 ++ g :: gs2)).2) := by
  have hchar : ∀ (build : α → Except String (Option String)) (gs : List α),
      (processGroups build gs).1
          = gs.filterMap (fun g =>
            match build g with
            | .ok (some n) => some n
            | .ok none => none
            | .error _ => none) ∧
        (processGroups build gs).2
          = gs.filterMap (fun g =>
            match build g with
            | .ok _ => none
            | .error e => some ("ERROR: " ++ e)) := by
    intro build gs
    induction gs with
    | nil => exact ⟨rfl, rfl⟩
    | cons g rest ih =>
      cases hb : build g with
      | ok v =>
        cases v with
        | some n =>
          rw [processGroups, hb]
          refine ⟨?_, ?_⟩
          · rw [List.filterMap_cons, hb]
            exact congrArg _ ih.1
          · rw [List.filterMap_cons, hb]
            exact ih.2
        | none =>
          rw [processGroups, hb]
          refine ⟨?_, ?_⟩
          · rw [List.filterMap_cons, hb]
            exact ih.1
          · rw [List.filterMap_cons, hb]
            exact ih.2
      | error e =>
        rw [processGroups, hb]
        refine ⟨?_, ?_⟩
        · rw [List.filterMap_cons, hb]
          exact ih.1
        · rw [List.filterMap_cons, hb]
          exact congrArg _ ih.2
  refine ⟨hchar, ?_⟩
  intro build gs1 gs2 g e hg
  constructor
  · rw [(hchar build (gs1 ++ g :: gs2)).1, (hchar build (gs1 ++ gs2)).1,
      List.filterMap_append, List.filterMap_append, List.filterMap_cons, hg]
  · rw [(hchar build (gs1 ++ g :: gs2)).2]
    refine List.mem_filterMap.mpr ⟨g, by simp, ?_⟩
    rw [hg]

/-- Witness for C8: with one of three groups failing, the results of the
other two are collected and the failure is only logged. -/
theorem per_group_failure_isolated_witness :
    (processGroups
        (fun g : Nat =>
          if g = 1 then Except.error "boom" else Except.ok (some "font"))
        ([0] ++ 1 :: [2])).1
      = (processGroups
          (fun g : Nat =>
            if g = 1 then Except.error "boom" else Except.ok (some "font"))
          ([0] ++ [2])).1 ∧
    ("ERROR: " ++ "boom") ∈ (processGroups
        (fun g : Nat =>
          if g = 1 then Except.error "boom" else Except.ok (some "font"))
        ([0] ++ 1 :: [2])).2 :=
  per_group_failure_isolated.2
    (fun g : Nat => if g = 1 then Except.error "boom" else Except.ok (some "font"))
    [0] [2] 1 "boom" rfl

/-! ## The BDF pixel-size scanner -/

theorem get_pixel_size_cons (line : Str) (rest : List Str) :
    get_pixel_size (line :: rest) =
      if ("PIXEL_SIZE ".toList).isPrefixOf line then
        match (pySplit line)[1]? with
        | none => .error "IndexError"
        | some tok =>
          match pyInt? tok with
          | some n => .ok n
          | none => .error "ValueError"
      else if ("STARTCHAR".toList).isPrefixOf line then .ok 0
      else get_pixel_size rest := rfl

theorem startchar_not_pixel (l : Str)
    (h : ("STARTCHAR".toList).isPrefixOf l = true) :
    ("PIXEL_SIZE ".toList).isPrefixOf l = false := by
  rcases List.isPrefixOf_iff_prefix.mp h with ⟨t, rfl⟩
  rfl

/-- C4: `get_pixel_size` scans lines in order; the first `PIXEL_SIZE `
line before any `STARTCHAR` line yields its parsed integer token; a
`STARTCHAR` line first, or the end of the file, yields 0.  For misc
resources a resolved pixel size (> 0) overrides the static table's
value while an unresolved one (0) falls back to it. -/
theorem get_pixel_size_scan :
    (∀ (pre rest : List Str) (psl tok : Str) (n : Int),
      (∀ l ∈ pre, ¬ ("PIXEL_SIZE ".toList).isPrefixOf l = true ∧
        ¬ ("STARTCHAR".toList).isPrefixOf l = true) →
      ("PIXEL_SIZE ".toList).isPrefixOf psl = true →
      (pySplit psl)[1]? = some tok → pyInt? tok = some n →
      get_pixel_size (pre ++ psl :: rest) = .ok n) ∧
    (∀ (pre rest : List Str) (stc : Str),
      (∀ l ∈ pre, ¬ ("PIXEL_SIZE ".toList).isPrefixOf l = true) →
      ("STARTCHAR".toList).isPrefixOf stc = true →
      get_pixel_size (pre ++ stc :: rest) = .ok 0) ∧
    (∀ lines : List Str,
      (∀ l ∈ lines, ¬ ("PIXEL_SIZE ".toList).isPrefixOf l = true) →
      get_pixel_size lines = .ok 0) ∧
    (∀ tablePx actual : Int,
      (0 < actual → misc_pixel_size tablePx actual = actual) ∧
      misc_pixel_size tablePx 0 = tablePx) := by
  have hnone : ∀ lines : List Str,
      (∀ l ∈ lines, ¬ ("PIXEL_SIZE ".toList).isPrefixOf l = true) →
      get_pixel_size lines = .ok 0 := by
    intro lines h
    induction lines with
    | nil => rfl
    | cons line rest ih =>
      rw [get_pixel_size_cons,
        if_neg (h line (List.mem_cons_self line rest))]
      by_cases hstc : ("STARTCHAR".toList).isPrefixOf line = true
      · rw [if_pos hstc]
      · rw [if_neg hstc]
        exact ih (fun l hl => h l (List.mem_cons_of_mem _ hl))
  refine ⟨?_, ?_, hnone, ?_⟩
  · intro pre rest psl tok n hpre hps htok hint
    induction pre with
    | nil =>
      rw [List.nil_append, get_pixel_size_cons, if_pos hps]
      simp [htok, hint]
    | cons p pre' ih =>
      have hp := hpre p (List.mem_cons_self p pre')
      rw [List.cons_append, get_pixel_size_cons, if_neg hp.1, if_neg hp.2]
      exact ih (fun l hl => hpre l (List.mem_cons_of_mem _ hl))
  · intro pre rest stc hpre hstc
    induction pre with
    | nil =>
      rw [List.nil_append, get_pixel_size_cons]
      rw [startchar_not_pixel stc hstc]
      rw [if_neg Bool.false_ne_true, if_pos hstc]
    | cons p pre' ih =>
      have hp := hpre p (List.mem_cons_self p pre')
      rw [List.cons_append, get_pixel_size_cons, if_neg hp]
      by_cases hpstc : ("STARTCHAR".toList).isPrefixOf p = true
      · rw [if_pos hpstc]
      · rw [if_neg hpstc]
        exact ih (fun l hl => hpre l (List.mem_cons_of_mem _ hl))
  · intro tablePx actual
    constructor
    · intro h
      unfold misc_pixel_size
      rw [if_pos h]
    · rfl

/-- Witness for C4 on a small BDF header: a comment line, then
`PIXEL_SIZE 14`, then glyph data. -/
theorem get_pixel_size_scan_witness :
    get_pixel_size
        ["COMMENT x".toList, "PIXEL_SIZE 14".toList, "STARTCHAR a".toList]
      = .ok 14 ∧
    get_pixel_size ["FOUNDRY b".toList, "STARTCHAR a".toList] = .ok 0 ∧
    misc_pixel_size 13 14 = 14 ∧ misc_pixel_size 13 0 = 13 := by
  obtain ⟨ha, hb, -, hd⟩ := get_pixel_size_scan
  refine ⟨?_, ?_, (hd 13 14).1 (by decide), (hd 13 0).2⟩
  · exact ha ["COMMENT x".toList] ["STARTCHAR a".toList]
      ("PIXEL_SIZE 14".toList) ("14".toList) 14 (by decide) (by decide) rfl rfl
  · exact hb ["FOUNDRY b".toList] [] ("STARTCHAR a".toList) (by decide)
      (by decide)

/-- C5 as stated is false: a malformed `PIXEL_SIZE` header line raises.
On the line `PIXEL_SIZE ` (no value), `line.split()` has no second
element and `int(line.split()[1])` raises `IndexError`, so the resolver
does not return an integer. -/
theorem get_pixel_size_raises_on_malformed :
    get_pixel_size ["PIXEL_SIZE ".toList] = .error "IndexError" ∧
      get_pixel_size ["PIXEL_SIZE abc".toList] = .error "ValueError" := by
  constructor <;> rfl

/-- C5 (amended): the resolver returns an integer — the parsed value or
0 — and never raises, provided every `PIXEL_SIZE ` header line that
precedes the first `STARTCHAR` line (the only lines the scan reaches)
carries a second whitespace-separated token that parses as an integer;
when no `PIXEL_SIZE ` line precedes the first `STARTCHAR` line —
including empty or truncated headers — it resolves to 0. -/
theorem get_pixel_size_total_on_wellformed :
    (∀ lines : List Str,
      (∀ l ∈ lines.takeWhile (fun l => !("STARTCHAR".toList).isPrefixOf l),
        ("PIXEL_SIZE ".toList).isPrefixOf l = true →
        (((pySplit l)[1]?).bind pyInt?).isSome = true) →
      ∃ n, get_pixel_size lines = .ok n) ∧
    (∀ lines : List Str,
      (∀ l ∈ lines.takeWhile (fun l => !("STARTCHAR".toList).isPrefixOf l),
        ¬ ("PIXEL_SIZE ".toList).isPrefixOf l = true) →
      get_pixel_size lines = .ok 0) ∧
    get_pixel_size [] = .ok 0 := by
  refine ⟨?_, ?_, rfl⟩
  · intro lines h
    induction lines with
    | nil => exact ⟨0, rfl⟩
    | cons line rest ih =>
      by_cases hstc : ("STARTCHAR".toList).isPrefixOf line = true
      · refine ⟨0, ?_⟩
        rw [get_pixel_size_cons, startchar_not_pixel line hstc,
          if_neg Bool.false_ne_true, if_pos hstc]
      · have htw : (line :: rest).takeWhile
            (fun l => !("STARTCHAR".toList).isPrefixOf l)
            = line :: rest.takeWhile
                (fun l => !("STARTCHAR".toList).isPrefixOf l) := by
          rw [List.takeWhile_cons,
            if_pos (show (!("STARTCHAR".toList).isPrefixOf line) = true by
              simp only [Bool.not_eq_true']
              exact Bool.eq_false_iff.mpr hstc)]
        rw [htw] at h
        by_cases hps : ("PIXEL_SIZE ".toList).isPrefixOf line = true
        · have hsome := h line (List.mem_cons_self line _) hps
          cases htok : (pySplit line)[1]? with
          | none => rw [htok] at hsome; simp at hsome
          | some tok =>
            rw [htok] at hsome
            cases hint : pyInt? tok with
            | none => simp [hint] at hsome
            | some n =>
              refine ⟨n, ?_⟩
              rw [get_pixel_size_cons, if_pos hps]
              simp [htok, hint]
        · rcases ih (fun l hl => h l (List.mem_cons_of_mem _ hl)) with ⟨n, hn⟩
          refine ⟨n, ?_⟩
          rw [get_pixel_size_cons, if_neg hps, if_neg hstc]
          exact hn
  · intro lines h
    induction lines with
    | nil => rfl
    | cons line rest ih =>
      by_cases hstc : ("STARTCHAR".toList).isPrefixOf line = true
      · rw [get_pixel_size_cons, startchar_not_pixel line hstc,
          if_neg Bool.false_ne_true, if_pos hstc]
      · have htw : (line :: rest).takeWhile
            (fun l => !("STARTCHAR".toList).isPrefixOf l)
            = line :: rest.takeWhile
                (fun l => !("STARTCHAR".toList).isPrefixOf l) := by
          rw [List.takeWhile_cons,
            if_pos (show (!("STARTCHAR".toList).isPrefixOf line) = true by
              simp only [Bool.not_eq_true']
              exact Bool.eq_false_iff.mpr hstc)]
        rw [htw] at h
        rw [get_pixel_size_cons,
          if_neg (h line (List.mem_cons_self line _)), if_neg hstc]
        exact ih (fun l hl => h l (List.mem_cons_of_mem _ hl))

/-- Witness for the amended C5: a well-formed header parses, and a file
whose malformed `PIXEL_SIZE ` line sits after the first `STARTCHAR`
line still resolves to 0 without raising. -/
theorem get_pixel_size_total_on_wellformed_witness :
    (∃ n, get_pixel_size ["PIXEL_SIZE 14".toList, "STARTCHAR a".toList]
      = .ok n) ∧
    (∃ n, get_pixel_size ["STARTCHAR a".toList, "PIXEL_SIZE ".toList]
      = .ok n) ∧
    get_pixel_size ["STARTCHAR a".toList, "PIXEL_SIZE ".toList] = .ok 0 :=
  ⟨get_pixel_size_total_on_wellformed.1
      ["PIXEL_SIZE 14".toList, "STARTCHAR a".toList] (by decide),
    get_pixel_size_total_on_wellformed.1
      ["STARTCHAR a".toList, "PIXEL_SIZE ".toList] (by decide),
    get_pixel_size_total_on_wellformed.2.1
      ["STARTCHAR a".toList, "PIXEL_SIZE ".toList] (by decide)⟩

/-! ## Em value and advance-width rounding -/

/-- C6: the em is `largest_px * 100`, so the width quantum
`em // largest_px` is exactly 100; every rounded advance width is a
nearest multiple of that quantum; and the rounding is stable — rounding
an already-rounded width is a no-op. -/
theorem width_rounding :
    (∀ largestPx : Int, fontEm largestPx = largestPx * 100) ∧
    (∀ largestPx : Int, 0 < largestPx →
      widthScale (fontEm largestPx) largestPx = 100) ∧
    (∀ w s m : Int, 0 < s → |roundWidth w s - w| ≤ |m * s - w|) ∧
    (∀ w s : Int, 0 < s → roundWidth (roundWidth w s) s = roundWidth w s) := by
  refine ⟨fun _ => rfl, ?_, ?_, ?_⟩
  · intro L hL
    exact Int.mul_fdiv_cancel_left 100 (ne_of_gt hL)
  · intro w s m hs
    obtain ⟨q, r, rfl, hr0, hrs⟩ : ∃ q r, w = q * s + r ∧ 0 ≤ r ∧ r < s := by
      refine ⟨w / s, w % s, ?_, Int.emod_nonneg w (ne_of_gt hs),
        Int.emod_lt_of_pos w hs⟩
      have := Int.ediv_add_emod w s
      linarith
    have hfd : Int.fdiv (q * s + r) s = q := by
      rw [Int.fdiv_eq_ediv _ hs.le, add_comm,
        Int.add_mul_ediv_right r q (ne_of_gt hs),
        Int.ediv_eq_zero_of_lt hr0 hrs]
      simp
    have hmw : m * s - (q * s + r) = (m - q) * s - r := by ring
    have hlow : m ≤ q → r ≤ |m * s - (q * s + r)| := by
      intro hm
      have h1 : (m - q) * s ≤ 0 := by
        have := mul_le_mul_of_nonneg_right (sub_nonpos.mpr hm) hs.le
        simpa using this
      have h3 : m * s - (q * s + r) ≤ 0 := by rw [hmw]; linarith
      rw [abs_of_nonpos h3, hmw]
      linarith
    have hhigh : q < m → s - r ≤ |m * s - (q * s + r)| := by
      intro hm
      have h1 : (1 : Int) * s ≤ (m - q) * s :=
        mul_le_mul_of_nonneg_right (by omega) hs.le
      have h3 : 0 ≤ m * s - (q * s + r) := by rw [hmw]; linarith
      rw [abs_of_nonneg h3, hmw]
      linarith
    unfold roundWidth pyRoundDiv
    rw [hfd]
    have hz : q * s + r - q * s = r := by ring
    rw [hz]
    split_ifs with h1 h2 h3
    · have hv : q * s - (q * s + r) = -r := by ring
      rw [hv, abs_neg, abs_of_nonneg hr0]
      rcases le_or_lt m q with hm | hm
      · exact hlow hm
      · have := hhigh hm
        linarith
    · have hv : (q + 1) * s - (q * s + r) = s - r := by ring
      rw [hv, abs_of_nonneg (by linarith)]
      rcases le_or_lt m q with hm | hm
      · have := hlow hm
        linarith
      · exact hhigh hm
    · have hv : q * s - (q * s + r) = -r := by ring
      rw [hv, abs_neg, abs_of_nonneg hr0]
      rcases le_or_lt m q with hm | hm
      · exact hlow hm
      · have := hhigh hm
        linarith
    · have hv : (q + 1) * s - (q * s + r) = s - r := by ring
      rw [hv, abs_of_nonneg (by linarith)]
      rcases le_or_lt m q with hm | hm
      · have := hlow hm
        linarith
      · exact hhigh hm
  · intro w s hs
    show pyRoundDiv (pyRoundDiv w s * s) s * s = pyRoundDiv w s * s
    set c := pyRoundDiv w s with hcdef
    have hc : pyRoundDiv (c * s) s = c := by
      unfold pyRoundDiv
      have hfd : Int.fdiv (c * s) s = c := Int.mul_fdiv_cancel c (ne_of_gt hs)
      rw [hfd]
      have hz : c * s - c * s = 0 := by ring
      rw [hz]
      rw [if_pos (by simpa using hs : 2 * (0 : Int) < s)]
    rw [hc]

/-- Witness for C6 at `largest_px = 13`, width 537, quantum 100. -/
theorem width_rounding_witness :
    fontEm 13 = 13 * 100 ∧ widthScale (fontEm 13) 13 = 100 ∧
      |roundWidth 537 100 - 537| ≤ |5 * 100 - 537| ∧
      roundWidth (roundWidth 537 100) 100 = roundWidth 537 100 := by
  obtain ⟨h1, h2, h3, h4⟩ := width_rounding
  exact ⟨h1 13, h2 13 (by decide), h3 537 100 5 (by decide),
    h4 537 100 (by decide)⟩

/-! ## Weight class and displayed sub-family -/

/-- C9: the numeric weight class is 700 exactly when the style string
contains `Bold` (so for Bold and BoldOblique, 400 for Regular and
Oblique), and the displayed sub-family renames `Oblique` to `Italic`
and `BoldOblique` to `Bold Italic`, leaving Regular and Bold
unchanged. -/
theorem weight_and_subfamily :
    (∀ style : Str, (os2_weight style = 700 ↔ "Bold".toList <:+: style)) ∧
    (os2_weight ("Bold".toList) = 700 ∧
      os2_weight ("BoldOblique".toList) = 700 ∧
      os2_weight ("Regular".toList) = 400 ∧
      os2_weight ("Oblique".toList) = 400) ∧
    (subfamilyName ("Regular".toList) = "Regular".toList ∧
      subfamilyName ("Bold".toList) = "Bold".toList ∧
      subfamilyName ("Oblique".toList) = "Italic".toList ∧
      subfamilyName ("BoldOblique".toList) = "Bold Italic".toList) := by
  refine ⟨?_, by decide, by decide⟩
  intro style
  unfold os2_weight
  by_cases h : "Bold".toList <:+: style
  · rw [if_pos h]
    simpa using h
  · rw [if_neg h]
    constructor
    · intro hc
      exact absurd hc (by decide)
    · intro hc
      exact absurd hc h

end X11Importer
